import Mathlib

/-!
Verification of the command-detection module `CommandsDetection_APU` (file
`Main.go`) of the V.I.S.O.R. platforms unifier.  Go strings are embedded as
lists of characters, Go `float32` code values as rationals (the code only
compares them for equality and sign), slices as Lean lists, and the
panic/recover boundary as an `Except` value.  External collaborators that are
not part of this file (the NLP preparation functions, the words-verification
oracle, the catalog arrays and the small `GlobalUtilsInt_APU` helpers) are
modelled from the specification as explicit parameters or small definitions,
each marked as such in its documentation.
-/

/-- Go strings, embedded as lists of characters. -/
abbrev GoStr := List Char

/-- The apostrophe character, written by code to keep it out of literals. -/
def apoChar : Char := Char.ofNat 39

/-- The literal negation marker scanned on line 204 of Main.go. -/
def dontWord : GoStr := ['d', 'o', 'n', apoChar, 't']

/-- CMDS_SEPARATOR (line 68 of Main.go). -/
def CMDS_SEPARATOR : GoStr := [',', ' ']

/-- The single-space separator used to split the sentence (line 81). -/
def spaceSep : GoStr := [' ']

/-- Go strings.Split: auxiliary scan.  The accumulator holds the current piece
reversed; when the separator occurs, the piece is emitted and the separator
consumed.  The extra fuel argument only makes the recursion structural: every
step consumes at least one character, so fuel starting at the length of the
scanned string is never exhausted. -/
def splitSepAux (sep : GoStr) : Nat → List Char → List Char → List GoStr
  | _, [], acc => [acc.reverse]
  | 0, s, acc => [acc.reverse ++ s]
  | fuel + 1, c :: rest, acc =>
    if sep.isPrefixOf (c :: rest) then
      acc.reverse :: splitSepAux sep fuel (rest.drop (sep.length - 1)) []
    else
      splitSepAux sep fuel rest (c :: acc)

/-- Go strings.Split with a non-empty separator, as used on lines 81 and 83 of
Main.go (an empty input yields one empty piece). -/
def splitSep (sep s : GoStr) : List GoStr := splitSepAux sep s.length s []

/-- Decimal value of a list of digit characters. -/
def digitsToNat (l : List Char) : Nat :=
  l.foldl (fun acc c => acc * 10 + (c.toNat - 48)) 0

/-- Whether a list of characters is a non-empty run of decimal digits. -/
def allDigits (l : List Char) : Bool := !l.isEmpty && l.all (fun c => c.isDigit)

/-- Whether a Go string is a syntactically valid integer for strconv.Atoi. -/
def goAtoiValid (s : GoStr) : Bool :=
  match s with
  | '+' :: rest => allDigits rest
  | '-' :: rest => allDigits rest
  | _ => allDigits s

/-- Numeric value of a syntactically valid optionally-signed decimal. -/
def goAtoiVal (s : GoStr) : Int :=
  match s with
  | '+' :: rest => (digitsToNat rest : Int)
  | '-' :: rest => -(digitsToNat rest : Int)
  | _ => (digitsToNat s : Int)

/-- Modelled from the spec: Go strconv.Atoi as invoked on line 84 of Main.go
with its error value discarded — a valid optionally-signed decimal string
gives its value, any other string gives 0. -/
def goAtoi (s : GoStr) : Int :=
  if goAtoiValid s then goAtoiVal s else 0

/-- Value of an unsigned decimal string with integer and fractional digits. -/
def fracVal (ip fp : List Char) : ℚ :=
  (digitsToNat ip : ℚ) + (digitsToNat fp : ℚ) / ((10 : ℚ) ^ fp.length)

/-- Magnitude part of a decimal float string: digits with an optional single
point followed by digits. -/
def goParseF32Mag (s : List Char) : Option ℚ :=
  let ip := s.takeWhile (fun c => c != '.')
  let rest := s.dropWhile (fun c => c != '.')
  match rest with
  | [] => if allDigits ip then some ((digitsToNat ip : ℚ)) else none
  | _ :: fp => if allDigits ip && allDigits fp then some (fracVal ip fp) else none

/-- Modelled from the spec: Go strconv.ParseFloat on the catalog code strings
(lines 207, 253, 302 of Main.go) with its error value discarded — a plain
optionally-signed decimal gives its value, any other string gives 0. -/
def goParseF32 (s : GoStr) : ℚ :=
  match s with
  | '+' :: rest => (goParseF32Mag rest).getD 0
  | '-' :: rest => -((goParseF32Mag rest).getD 0)
  | _ => (goParseF32Mag s).getD 0

/-- Modelled from the spec: the exception raised through
GlobalUtilsInt_APU.PanicInt (an error code and a description) and caught by
the Tcf boundary inside Main. -/
structure Exc where
  code : Int
  msg : GoStr
deriving DecidableEq

deriving instance DecidableEq for Except

/-- The description passed to PanicInt on line 214 of Main.go. -/
def msgNonPositive : GoStr :=
  ("Non-positive command identifier sent for detection").data

/-- The description passed to PanicInt on line 219 of Main.go. -/
def msgAboveHighest : GoStr :=
  ("Command identifier above highest value sent for detection").data

/-- The fault raised for a non-positive allowed command identifier. -/
def excNonPositive : Exc := ⟨1, msgNonPositive⟩

/-- The fault raised for an allowed command identifier above the highest one. -/
def excAboveHighest : Exc := ⟨1, msgAboveHighest⟩

/-- The FaultyCatalogUsage condition of the specification: one of the two
identifier-validation faults of sentenceCmdsDetector. -/
def isFaultyCatalogUsage (e : Exc) : Prop :=
  e = excNonPositive ∨ e = excAboveHighest

/-- Modelled from the spec: the static command catalog together with the
external collaborators consulted per trigger — WHATS_IT and WARN_WHATS_IT,
HIGHEST_CMD_INT, the per-command trigger words main_words_GL, the
words-verification oracle (wordsVerificationFunction bundled with all its
per-command patterns), the continue/not-continue gate
(checkResultsWordsVerifFunc bundled with its per-command conditions) and the
per-command condition tree conditions_return_GL. -/
structure Catalog where
  highest : Int
  whatsIt : GoStr
  warnWhatsIt : GoStr
  mainWords : Int → List GoStr
  oracle : List GoStr → Nat → Int → List (List GoStr)
  checkResults : Int → GoStr → List (List GoStr) → Bool
  conditionsReturn : Int → List (List (List GoStr))

/-- One sub-condition of a condition alternative (lines 260-297 of Main.go):
its head is the index of the results sub-slice to check, with -1 referring to
the triggering word, and its tail holds the candidate words; the sub-condition
holds when the referenced value equals any candidate. -/
def subCondHolds (results : List (List GoStr)) (trigger : GoStr)
    (sub_cond : List GoStr) : Bool :=
  let idx := goAtoi (sub_cond.headD [])
  (sub_cond.drop 1).any (fun w =>
    if idx = -1 then decide (trigger = w)
    else decide ((results.getD idx.toNat []).headD [] = w))

/-- Conjunction over the sub-conditions of one alternative — every element of
the alternative but the last, which holds the return code (lines 258-297). -/
def allSubCondsHold (results : List (List GoStr)) (trigger : GoStr)
    (condition : List (List GoStr)) : Bool :=
  condition.dropLast.all (subCondHolds results trigger)

/-- The condition-tree loop of sentenceCmdsDetector (lines 249-313 of
Main.go): alternatives are scanned in order; a single-element alternative
immediately yields its code; a longer alternative yields its final code when
all its sub-conditions hold; the first success ends the scan. -/
def condLoop (results : List (List GoStr)) (trigger : GoStr) :
    List (List (List GoStr)) → Option ℚ
  | [] => none
  | condition :: rest =>
    if condition.length = 1 then
      some (goParseF32 ((condition.headD []).headD []))
    else if allSubCondsHold results trigger condition then
      some (goParseF32 ((condition.getLastD []).headD []))
    else condLoop results trigger rest

/-- Whether one alternative of the condition tree succeeds, as stated by the
specification: a literal alternative always does, a guarded one exactly when
all its sub-conditions hold. -/
def condSucceeds (results : List (List GoStr)) (trigger : GoStr)
    (condition : List (List GoStr)) : Bool :=
  decide (condition.length = 1) || allSubCondsHold results trigger condition

/-- The terminal code of an alternative: the only word of its last element. -/
def condCode (condition : List (List GoStr)) : ℚ :=
  goParseF32 ((condition.getLastD []).headD [])

/-- The specification reading of the Condition Evaluator: the first successful
alternative, in order, yields its terminal code. -/
def evalSpec (results : List (List GoStr)) (trigger : GoStr)
    (conds : List (List (List GoStr))) : Option ℚ :=
  (conds.find? (condSucceeds results trigger)).map condCode

/-- The main-word loop for one command (lines 222-316 of Main.go): every main
word equal to the current sentence word invokes the oracle, the gate, and the
condition loop, appending at most one code per match. -/
def mainWordsLoop (cat : Catalog) (sentence : List GoStr) (pos : Nat)
    (word : GoStr) (cmd : Int) : List GoStr → List ℚ → List ℚ
  | [], acc => acc
  | mw :: rest, acc =>
    mainWordsLoop cat sentence pos word cmd rest
      (if mw = word then
        let results := cat.oracle sentence pos cmd
        if cat.checkResults cmd word results then
          match condLoop results word (cat.conditionsReturn cmd) with
          | some code => acc ++ [code]
          | none => acc
        else acc
      else acc)

/-- The allowed-commands loop (lines 210-317 of Main.go): every identifier is
first validated — a non-positive one or one above the highest catalog
identifier raises a fault through PanicInt — and then matched against the
current sentence word. -/
def cmdsLoop (cat : Catalog) (sentence : List GoStr) (pos : Nat)
    (word : GoStr) : List Int → List ℚ → Except Exc (List ℚ)
  | [], acc => .ok acc
  | cmd :: rest, acc =>
    if cmd ≤ 0 then .error excNonPositive
    else if cat.highest < cmd then .error excAboveHighest
    else cmdsLoop cat sentence pos word rest
      (mainWordsLoop cat sentence pos word cmd (cat.mainWords cmd) acc)

/-- spec_cmd_dont_CONST = -1 (line 180 of Main.go). -/
def spec_cmd_dont_CONST : ℚ := -1

/-- The word scan of sentenceCmdsDetector (lines 202-319 of Main.go): the
negation marker and the WHATS_IT placeholder append their sentinel codes
directly; any other word runs the allowed-commands loop. -/
def detectLoop (cat : Catalog) (sentence : List GoStr) (allowed : List Int) :
    List GoStr → Nat → List ℚ → Except Exc (List ℚ)
  | [], _, acc => .ok acc
  | word :: rest, pos, acc =>
    if word = dontWord then
      detectLoop cat sentence allowed rest (pos + 1) (acc ++ [spec_cmd_dont_CONST])
    else if word = cat.whatsIt then
      detectLoop cat sentence allowed rest (pos + 1)
        (acc ++ [goParseF32 cat.warnWhatsIt])
    else
      match cmdsLoop cat sentence pos word allowed acc with
      | .error e => .error e
      | .ok acc2 => detectLoop cat sentence allowed rest (pos + 1) acc2

/-- sentenceCmdsDetector (lines 199-322 of Main.go). -/
def sentenceCmdsDetector (cat : Catalog) (sentence : List GoStr)
    (allowed : List Int) : Except Exc (List ℚ) :=
  detectLoop cat sentence allowed sentence 0 []

/-- MARK_TERMINATION_FLOAT32 = 0 (line 353 of Main.go). -/
def MARK_TERMINATION_FLOAT32 : ℚ := 0

/-- The inner scan of taskFilter (lines 374-383 of Main.go): the positions of
the value following the dont, collected over the working slice up to and
including the dont position (where the loop breaks). -/
def tfScanPos (cur : List ℚ) (i : Nat) (next : ℚ) : List Nat :=
  (List.range (i + 1)).filter (fun j => decide (cur.getD j 0 = next))

/-- Lines 411-417 of taskFilter: mark the element before the dont for
deletion, only when it exists and is positive on the working slice. -/
def tfMarkBefore (cur : List ℚ) (i : Nat) : List ℚ :=
  if 0 < i ∧ 0 < cur.getD (i - 1) 0 then
    cur.set (i - 1) MARK_TERMINATION_FLOAT32
  else cur

/-- The body of the marking loop of taskFilter (lines 355-419 of Main.go) at
one position of the working slice. -/
def tfStep (n : Nat) (cur : List ℚ) (i : Nat) : List ℚ :=
  if cur.getD i 0 = spec_cmd_dont_CONST then
    let cur1 := cur.set i MARK_TERMINATION_FLOAT32
    if i ≠ n - 1 then
      let next := cur1.getD (i + 1) 0
      if 0 < next then
        let pos := tfScanPos cur1 i next
        if pos.isEmpty then tfMarkBefore cur1 i
        else pos.foldl (fun a j => a.set j MARK_TERMINATION_FLOAT32)
          (cur1.set (i + 1) MARK_TERMINATION_FLOAT32)
      else cur1
    else tfMarkBefore cur1 i
  else cur

/-- The marking pass of taskFilter (lines 355-419 of Main.go), which scans the
original index range while writing marks into the working slice. -/
def tfMark (s : List ℚ) : List ℚ := (List.range s.length).foldl (tfStep s.length) s

/-- Modelled from the spec: GlobalUtilsInt_APU.DelElemInSlice removes the
element at one index, preserving the order of the remaining elements. -/
def delElemInSlice (l : List ℚ) (i : Nat) : List ℚ := l.eraseIdx i

/-- The compaction loop of taskFilter (lines 424-430 of Main.go): every
element equal to the deletion mark is removed in place, with the length
re-checked on every iteration. -/
def tfCompact (l : List ℚ) (i : Nat) : List ℚ :=
  if h : i < l.length then
    if l.getD i 0 = MARK_TERMINATION_FLOAT32 then tfCompact (delElemInSlice l i) i
    else tfCompact l (i + 1)
  else l
termination_by l.length - i
decreasing_by
  · simp only [delElemInSlice, List.length_eraseIdx, h, if_true]
    omega
  · omega

/-- taskFilter (lines 341-434 of Main.go): the marking pass followed by the
compaction pass over the same slice. -/
def taskFilter (s : List ℚ) : List ℚ := tfCompact (tfMark s) 0

/-- The fallback marking rule of the Negation Resolver described by the
specification, over the original values with an explicit mark set: the element
before the dont is marked only when it exists and is positive. -/
def c2Before (s : List ℚ) (marks : List Nat) (i : Nat) : List Nat :=
  if 0 < i ∧ 0 < s.getD (i - 1) 0 then (i - 1) :: marks else marks

/-- One step of the mark-set reading of the marking pass actually performed by
taskFilter: the dont is marked; when a positive code follows, its occurrences
among the not-yet-marked elements strictly before the dont decide between
marking all of them together with the following element and marking the
predecessor; when a non-positive value follows, nothing else is marked; when
the dont is last, the predecessor rule applies. -/
def c2Step (s : List ℚ) (marks : List Nat) (i : Nat) : List Nat :=
  if s.getD i 0 = spec_cmd_dont_CONST then
    let m1 := i :: marks
    if i + 1 < s.length then
      let next := s.getD (i + 1) 0
      if 0 < next then
        let occ := (List.range i).filter
          (fun j => decide (s.getD j 0 = next ∧ j ∉ marks))
        if occ.isEmpty then c2Before s m1 i else (i + 1) :: occ ++ m1
      else m1
    else c2Before s m1 i
  else marks

/-- The mark set produced by a left-to-right scan of the whole sequence. -/
def c2Marks (s : List ℚ) : List Nat := (List.range s.length).foldl (c2Step s) []

/-- The mark-set reading of taskFilter: survivors are the unmarked elements
whose value is not the reserved mark value 0, in their original order. -/
def taskFilterSpec (s : List ℚ) : List ℚ :=
  ((List.range s.length).filter
    (fun j => decide (j ∉ c2Marks s ∧ s.getD j 0 ≠ 0))).map (fun j => s.getD j 0)

/-- The claim reading of the fallback rule: identical to c2Before. -/
def c2LitBefore (s : List ℚ) (marks : List Nat) (i : Nat) : List Nat :=
  if 0 < i ∧ 0 < s.getD (i - 1) 0 then (i - 1) :: marks else marks

/-- One step of the Negation Resolver exactly as the claim states it: the dont
is marked; when a positive code c follows, either every earlier occurrence of
c (in the original sequence) and the following element are marked, or, with no
earlier occurrence, the predecessor is marked if positive; when the following
element is absent or not a positive code, the predecessor is marked under the
same only-if-positive guard. -/
def c2LitStep (s : List ℚ) (marks : List Nat) (i : Nat) : List Nat :=
  if s.getD i 0 = spec_cmd_dont_CONST then
    let m1 := i :: marks
    if i + 1 < s.length then
      let next := s.getD (i + 1) 0
      if 0 < next then
        let occ := (List.range i).filter (fun j => decide (s.getD j 0 = next))
        if occ.isEmpty then c2LitBefore s m1 i else (i + 1) :: occ ++ m1
      else c2LitBefore s m1 i
    else c2LitBefore s m1 i
  else marks

/-- The mark set of the claim reading. -/
def c2LitMarks (s : List ℚ) : List Nat :=
  (List.range s.length).foldl (c2LitStep s) []

/-- The Negation Resolver exactly as the claim states it: every marked element
is removed, every other element survives in order. -/
def taskFilterClaim (s : List ℚ) : List ℚ :=
  ((List.range s.length).filter
    (fun j => decide (j ∉ c2LitMarks s))).map (fun j => s.getD j 0)

/-- MARK_TERMINATION_STR (line 151 of Main.go). -/
def MARK_TERMINATION_STR : GoStr := ("3234_MARK_TERMINATION_STR").data

/-- The body of the marking loop of removeRepeatedCmds (lines 154-160 of
Main.go) at one position: an element equal to its immediate successor on the
working slice is overwritten with the termination mark. -/
def rrStep (n : Nat) (cur : List GoStr) (i : Nat) : List GoStr :=
  if i ≠ n - 1 ∧ cur.getD (i + 1) [] = cur.getD i [] then
    cur.set i MARK_TERMINATION_STR
  else cur

/-- The marking pass of removeRepeatedCmds over the split list. -/
def rrMark (l : List GoStr) : List GoStr :=
  (List.range l.length).foldl (rrStep l.length) l

/-- The element-level core of removeRepeatedCmds: marking followed by dropping
the marked elements. -/
def removeRepeatedCmdsList (l : List GoStr) : List GoStr :=
  (rrMark l).filter (fun c => decide (c ≠ MARK_TERMINATION_STR))

/-- The trailing-separator strip shared by lines 111-113 and 169-171 of
Main.go: when the built string ends with the separator, the separator is cut
off. -/
def stripTrailingSep (raw : GoStr) : GoStr :=
  if CMDS_SEPARATOR.isSuffixOf raw then
    raw.take (raw.length - CMDS_SEPARATOR.length)
  else raw

/-- removeRepeatedCmds (lines 148-174 of Main.go): split on the separator,
mark immediately-repeated elements, rebuild the joined string skipping marked
elements, and strip the trailing separator. -/
def removeRepeatedCmds (s : GoStr) : GoStr :=
  let l := splitSep CMDS_SEPARATOR s
  let marked := rrMark l
  stripTrailingSep (marked.foldl
    (fun acc c => if c ≠ MARK_TERMINATION_STR then acc ++ c ++ CMDS_SEPARATOR else acc) [])

/-- The deletion rule the claim states for the Deduplicator: drop every
element that equals its immediate successor. -/
def dedupeSpec : List GoStr → List GoStr
  | [] => []
  | [a] => [a]
  | a :: b :: t => if a = b then dedupeSpec (b :: t) else a :: dedupeSpec (b :: t)

/-- The output format stated by the specification: pieces joined by the
separator with no trailing separator, the empty list giving the empty
string. -/
def joinSepSpec : List GoStr → GoStr
  | [] => []
  | [x] => x
  | x :: y :: t => x ++ CMDS_SEPARATOR ++ joinSepSpec (y :: t)

/-- Modelled from the spec: the external collaborators of MainInternal that
are outside this module — sentence correction, the NLP preparation (which may
rewrite the token slice and returns the joined string), the anaphora
analyzer, the Go fmt.Sprint rendering of a float32 code, the module error
prefix GlobalUtilsInt_APU.MOD_RET_ERR_PREFIX, and the fmt.Sprint rendering of
a caught exception. -/
structure ExtDeps where
  sentenceCorrection : GoStr → GoStr
  sentenceNLPPreparation : List GoStr → Bool → List GoStr × GoStr
  nlpAnalyzer : List GoStr → GoStr → List GoStr
  fmtF : ℚ → GoStr
  modRetErrPrefix : GoStr
  fmtExc : Exc → GoStr

/-- The token list reaching sentenceCmdsDetector (lines 79-98 of Main.go):
correction, splitting on spaces, and the two NLP passes around the anaphora
analyzer. -/
def finalTokens (ext : ExtDeps) (sentence_str : GoStr) : List GoStr :=
  let s1 := ext.sentenceCorrection sentence_str
  let sentence := splitSep spaceSep s1
  let p1 := ext.sentenceNLPPreparation sentence true
  let sentence2 := ext.nlpAnalyzer p1.1 p1.2
  (ext.sentenceNLPPreparation sentence2 false).1

/-- The allowed-commands list parsed on lines 82-86 of Main.go: the string is
split on the separator and each piece is parsed with Atoi, errors ignored. -/
def allowedOf (allowed_cmds_str : GoStr) : List Int :=
  (splitSep CMDS_SEPARATOR allowed_cmds_str).map goAtoi

/-- MainInternal (lines 78-122 of Main.go): prepare the sentence, parse the
allowed identifiers, detect, filter negations, and join the codes with the
separator, stripping the trailing one. -/
def MainInternal (ext : ExtDeps) (cat : Catalog)
    (sentence_str allowed_cmds_str : GoStr) : Except Exc GoStr :=
  match sentenceCmdsDetector cat (finalTokens ext sentence_str)
      (allowedOf allowed_cmds_str) with
  | .error e => .error e
  | .ok sentence_cmds =>
    let filtered := taskFilter sentence_cmds
    .ok (stripTrailingSep (filtered.foldl
      (fun acc command => acc ++ ext.fmtF command ++ CMDS_SEPARATOR) []))

/-- ERR_CMD_DETECT (line 29 of Main.go). -/
def ERR_CMD_DETECT (ext : ExtDeps) : GoStr :=
  ext.modRetErrPrefix ++ ("CMD_DETECT - ").data

/-- Main (lines 53-66 of Main.go): the Tcf boundary, modelled from the spec as
catching any fault of MainInternal and rendering it after the error prefix. -/
def Main (ext : ExtDeps) (cat : Catalog) (sentence_str allowed_cmds : GoStr) : GoStr :=
  match MainInternal ext cat sentence_str allowed_cmds with
  | .ok ret_var => ret_var
  | .error e => ERR_CMD_DETECT ext ++ ext.fmtExc e

/-- Abbreviation for the string built by the unconditional joining loops:
every piece followed by the separator, concatenated. -/
def rawJoin (l : List GoStr) : GoStr := (l.map (fun c => c ++ CMDS_SEPARATOR)).flatten

theorem rawJoin_nil : rawJoin [] = [] := rfl

theorem rawJoin_cons (x : GoStr) (l : List GoStr) :
    rawJoin (x :: l) = x ++ CMDS_SEPARATOR ++ rawJoin l := by
  simp [rawJoin, List.append_assoc]

theorem foldl_append_join {α : Type} (f : α → GoStr) :
    ∀ (l : List α) (acc : GoStr),
      l.foldl (fun a c => a ++ f c ++ CMDS_SEPARATOR) acc = acc ++ rawJoin (l.map f)
  | [], acc => by simp [rawJoin]
  | x :: t, acc => by
    simp only [List.foldl_cons, List.map_cons, rawJoin_cons]
    rw [foldl_append_join f t]
    simp [List.append_assoc]

theorem rawJoin_ends_sep (x : GoStr) :
    ∀ l : List GoStr, ∃ pre : GoStr, rawJoin (x :: l) = pre ++ CMDS_SEPARATOR
  | [] => ⟨x, by rw [rawJoin_cons, rawJoin_nil, List.append_nil]⟩
  | y :: t => by
    obtain ⟨pre, hpre⟩ := rawJoin_ends_sep y t
    refine ⟨x ++ CMDS_SEPARATOR ++ pre, ?_⟩
    rw [rawJoin_cons, hpre]
    simp [List.append_assoc]

theorem strip_rawJoin : ∀ l : List GoStr, stripTrailingSep (rawJoin l) = joinSepSpec l
  | [] => by decide
  | [x] => by
    rw [rawJoin_cons, rawJoin_nil, List.append_nil]
    show stripTrailingSep (x ++ CMDS_SEPARATOR) = x
    simp only [stripTrailingSep]
    rw [if_pos (List.isSuffixOf_iff_suffix.mpr (List.suffix_append x CMDS_SEPARATOR))]
    have h2 : (x ++ CMDS_SEPARATOR).length - CMDS_SEPARATOR.length = x.length := by
      simp [CMDS_SEPARATOR]
    rw [h2, List.take_left]
  | x :: y :: t => by
    obtain ⟨pre, hpre⟩ := rawJoin_ends_sep y t
    have hrec := strip_rawJoin (y :: t)
    rw [rawJoin_cons]
    have hsfx : CMDS_SEPARATOR.isSuffixOf (x ++ CMDS_SEPARATOR ++ rawJoin (y :: t)) = true := by
      apply List.isSuffixOf_iff_suffix.mpr
      rw [hpre, ← List.append_assoc]
      exact List.suffix_append _ _
    have hsfx2 : CMDS_SEPARATOR.isSuffixOf (rawJoin (y :: t)) = true := by
      apply List.isSuffixOf_iff_suffix.mpr
      rw [hpre]
      exact List.suffix_append _ _
    simp only [stripTrailingSep] at hrec ⊢
    rw [if_pos hsfx]
    rw [if_pos hsfx2] at hrec
    have hlen : (rawJoin (y :: t)).length = pre.length + CMDS_SEPARATOR.length := by
      rw [hpre, List.length_append]
    have harith : (x ++ CMDS_SEPARATOR ++ rawJoin (y :: t)).length - CMDS_SEPARATOR.length
        = (x ++ CMDS_SEPARATOR).length + ((rawJoin (y :: t)).length - CMDS_SEPARATOR.length) := by
      simp only [List.length_append]
      omega
    rw [harith, List.take_append, hrec]
    show x ++ CMDS_SEPARATOR ++ joinSepSpec (y :: t) = joinSepSpec (x :: y :: t)
    rfl

theorem strip_foldl_eq_join {α : Type} (f : α → GoStr) (l : List α) :
    stripTrailingSep (l.foldl (fun a c => a ++ f c ++ CMDS_SEPARATOR) []) = joinSepSpec (l.map f) := by
  rw [foldl_append_join f l [], List.nil_append, strip_rawJoin]

theorem foldl_cond_append (l : List GoStr) (acc : GoStr) :
    l.foldl (fun a c => if c ≠ MARK_TERMINATION_STR then a ++ c ++ CMDS_SEPARATOR else a) acc
      = (l.filter (fun c => decide (c ≠ MARK_TERMINATION_STR))).foldl
          (fun a c => a ++ c ++ CMDS_SEPARATOR) acc := by
  induction l generalizing acc with
  | nil => rfl
  | cons x t ih =>
    rw [List.foldl_cons, List.filter_cons]
    by_cases hx : x = MARK_TERMINATION_STR
    · rw [if_neg (fun h => h hx), if_neg (by simp [hx])]
      exact ih acc
    · rw [if_pos hx, if_pos (by simp [hx]), List.foldl_cons]
      exact ih (acc ++ x ++ CMDS_SEPARATOR)

theorem tfCompact_eq_filter (l : List ℚ) (i : Nat) :
    tfCompact l i
      = l.take i ++ (l.drop i).filter (fun x => decide (x ≠ MARK_TERMINATION_FLOAT32)) := by
  induction l, i using tfCompact.induct with
  | case1 l i hi hmark ih =>
    rw [tfCompact, dif_pos hi, if_pos hmark, ih]
    have herase := List.eraseIdx_eq_take_drop_succ l i
    have hlen : (l.take i).length = i := List.length_take_of_le (by omega)
    rw [delElemInSlice, herase]
    rw [List.take_append_of_le_length (by omega), List.take_take, min_self]
    have hdrop : (l.take i ++ l.drop (i + 1)).drop i = l.drop (i + 1) := by
      calc (l.take i ++ l.drop (i + 1)).drop i
          = (l.take i ++ l.drop (i + 1)).drop (l.take i).length := by rw [hlen]
        _ = l.drop (i + 1) := List.drop_left _ _
    rw [hdrop, List.drop_eq_getElem_cons hi, List.filter_cons]
    have : l[i] = MARK_TERMINATION_FLOAT32 := by
      rw [← List.getD_eq_getElem l 0 hi]
      exact hmark
    rw [if_neg (by simp [this])]
  | case2 l i hi hmark ih =>
    rw [tfCompact, dif_pos hi, if_neg hmark, ih]
    have hgi : l[i] = l.getD i 0 := (List.getD_eq_getElem l 0 hi).symm
    have hne : (decide (l[i] ≠ MARK_TERMINATION_FLOAT32)) = true := by
      rw [hgi]
      simpa using hmark
    rw [List.drop_eq_getElem_cons hi, List.filter_cons, if_pos hne, List.take_succ,
      List.getElem?_eq_getElem hi, Option.toList_some, List.append_assoc,
      List.singleton_append]
  | case3 l i hi =>
    rw [tfCompact, dif_neg hi]
    rw [List.take_of_length_le (by omega), List.drop_eq_nil_of_le (by omega)]
    simp

theorem taskFilter_eq_markFilter (s : List ℚ) :
    taskFilter s = (tfMark s).filter (fun x => decide (x ≠ MARK_TERMINATION_FLOAT32)) := by
  rw [taskFilter, tfCompact_eq_filter]
  simp

theorem MainInternal_ok (ext : ExtDeps) (cat : Catalog) (s a : GoStr) (l : List ℚ)
    (h : sentenceCmdsDetector cat (finalTokens ext s) (allowedOf a) = .ok l) :
    MainInternal ext cat s a = .ok (joinSepSpec ((taskFilter l).map ext.fmtF)) := by
  simp only [MainInternal, h]
  rw [strip_foldl_eq_join]

/-- C1: for every sentence string and every allowed-commands string, Main
returns a string, and every fault raised inside MainInternal is caught at the
single outer boundary and converted into a string that begins with the
ERR_CMD_DETECT prefix followed by the rendering of the fault. -/
theorem c1_main_catches_faults (ext : ExtDeps) (cat : Catalog)
    (sentence_str allowed_cmds : GoStr) :
    (∃ r, MainInternal ext cat sentence_str allowed_cmds = .ok r
        ∧ Main ext cat sentence_str allowed_cmds = r)
    ∨ (∃ e, MainInternal ext cat sentence_str allowed_cmds = .error e
        ∧ Main ext cat sentence_str allowed_cmds = ERR_CMD_DETECT ext ++ ext.fmtExc e
        ∧ ERR_CMD_DETECT ext <+: Main ext cat sentence_str allowed_cmds) := by
  cases h : MainInternal ext cat sentence_str allowed_cmds with
  | ok r =>
    refine .inl ⟨r, rfl, ?_⟩
    simp [Main, h]
  | error e =>
    refine .inr ⟨e, rfl, ?_, ?_⟩
    · simp [Main, h]
    · simp only [Main, h]
      exact ⟨ext.fmtExc e, rfl⟩

theorem condLoop_eq_evalSpec (results : List (List GoStr)) (trigger : GoStr) :
    ∀ conds, condLoop results trigger conds = evalSpec results trigger conds
  | [] => rfl
  | c :: rest => by
    by_cases h1 : c.length = 1
    · obtain ⟨x, rfl⟩ := List.length_eq_one.mp h1
      simp only [condLoop, if_pos h1, evalSpec]
      rw [List.find?_cons_of_pos _ (by simp [condSucceeds])]
      simp [condCode]
    · by_cases h2 : allSubCondsHold results trigger c = true
      · simp only [condLoop, if_neg h1, if_pos h2, evalSpec]
        rw [List.find?_cons_of_pos _ (by simp [condSucceeds, h2])]
        simp [condCode]
      · simp only [condLoop, if_neg h1, evalSpec]
        rw [if_neg h2, List.find?_cons_of_neg _ (by simp [condSucceeds, h1, h2])]
        exact condLoop_eq_evalSpec results trigger rest

/-- C5: the Condition Evaluator scans the alternatives of the condition tree
strictly in catalog order and yields the terminal code of the first
alternative that succeeds — a literal one immediately, a guarded one when all
its sub-conditions hold, each sub-condition holding when its referenced value
(a role of the match results, or the triggering word for the -1 index) equals
some word of its acceptance set — later alternatives are never consulted, and
no code results when no alternative succeeds. -/
theorem c5_condition_evaluator (results : List (List GoStr)) (trigger : GoStr)
    (conds : List (List (List GoStr))) :
    condLoop results trigger conds = evalSpec results trigger conds
    ∧ (∀ pre c post, conds = pre ++ c :: post →
        (∀ c2 ∈ pre, condSucceeds results trigger c2 = false) →
        condSucceeds results trigger c = true →
        condLoop results trigger conds = some (condCode c)) := by
  refine ⟨condLoop_eq_evalSpec results trigger conds, ?_⟩
  rintro pre c post rfl hpre hc
  rw [condLoop_eq_evalSpec, evalSpec, List.find?_append]
  rw [List.find?_eq_none.mpr (fun x hx => by simp [hpre x hx])]
  rw [List.find?_cons_of_pos _ hc]
  rfl

theorem goAtoi_invalid (t : GoStr) (h : goAtoiValid t = false) : goAtoi t = 0 := by
  simp [goAtoi, h]

theorem taskFilter_nil : taskFilter [] = [] := by
  rw [taskFilter_eq_markFilter]
  rfl

theorem Main_error (ext : ExtDeps) (cat : Catalog) (s a : GoStr) (e : Exc)
    (h : sentenceCmdsDetector cat (finalTokens ext s) (allowedOf a) = .error e) :
    MainInternal ext cat s a = .error e
      ∧ Main ext cat s a = ERR_CMD_DETECT ext ++ ext.fmtExc e := by
  have h1 : MainInternal ext cat s a = .error e := by
    simp only [MainInternal, h]
  exact ⟨h1, by simp only [Main, h1]⟩

theorem mainWordsLoop_no_match (cat : Catalog) (sentence : List GoStr) (pos : Nat)
    (word : GoStr) (cmd : Int) :
    ∀ (mws : List GoStr) (acc : List ℚ), word ∉ mws →
      mainWordsLoop cat sentence pos word cmd mws acc = acc
  | [], _, _ => rfl
  | mw :: rest, acc, h => by
    have hne : ¬(mw = word) := fun he => h (by rw [← he]; exact List.mem_cons_self mw rest)
    rw [mainWordsLoop, if_neg hne]
    exact mainWordsLoop_no_match cat sentence pos word cmd rest acc
      (fun hm => h (List.mem_cons_of_mem mw hm))

theorem cmdsLoop_ok_no_match (cat : Catalog) (sentence : List GoStr) (pos : Nat)
    (word : GoStr) :
    ∀ (allowed : List Int) (acc : List ℚ),
      (∀ cmd ∈ allowed, (0 < cmd ∧ cmd ≤ cat.highest) ∧ word ∉ cat.mainWords cmd) →
      cmdsLoop cat sentence pos word allowed acc = .ok acc
  | [], _, _ => rfl
  | cmd :: rest, acc, h => by
    obtain ⟨⟨h1, h2⟩, h3⟩ := h cmd (List.mem_cons_self cmd rest)
    rw [cmdsLoop, if_neg (by omega), if_neg (by omega)]
    rw [mainWordsLoop_no_match cat sentence pos word cmd (cat.mainWords cmd) acc h3]
    exact cmdsLoop_ok_no_match cat sentence pos word rest acc
      (fun c hc => h c (List.mem_cons_of_mem cmd hc))

theorem detectLoop_ok_no_trigger (cat : Catalog) (sentence : List GoStr)
    (allowed : List Int) (hids : ∀ cmd ∈ allowed, 0 < cmd ∧ cmd ≤ cat.highest) :
    ∀ (toks : List GoStr) (pos : Nat) (acc : List ℚ),
      (∀ w ∈ toks, w ≠ dontWord ∧ w ≠ cat.whatsIt
        ∧ ∀ cmd ∈ allowed, w ∉ cat.mainWords cmd) →
      detectLoop cat sentence allowed toks pos acc = .ok acc
  | [], _, _, _ => rfl
  | w :: rest, pos, acc, h => by
    obtain ⟨h1, h2, h3⟩ := h w (List.mem_cons_self w rest)
    rw [detectLoop, if_neg h1, if_neg h2]
    rw [cmdsLoop_ok_no_match cat sentence pos w allowed acc
      (fun c hc => ⟨hids c hc, h3 c hc⟩)]
    exact detectLoop_ok_no_trigger cat sentence allowed hids rest (pos + 1) acc
      (fun v hv => h v (List.mem_cons_of_mem w hv))

theorem cmdsLoop_fault (cat : Catalog) (sentence : List GoStr) (pos : Nat)
    (word : GoStr) :
    ∀ (allowed : List Int) (acc : List ℚ),
      (∃ b ∈ allowed, b ≤ 0 ∨ cat.highest < b) →
      ∃ e, cmdsLoop cat sentence pos word allowed acc = .error e ∧ isFaultyCatalogUsage e
  | [], _, h => by
    obtain ⟨b, hb, _⟩ := h
    exact absurd hb (List.not_mem_nil b)
  | cmd :: rest, acc, h => by
    by_cases h1 : cmd ≤ 0
    · exact ⟨excNonPositive, by rw [cmdsLoop, if_pos h1], .inl rfl⟩
    · by_cases h2 : cat.highest < cmd
      · exact ⟨excAboveHighest, by rw [cmdsLoop, if_neg h1, if_pos h2], .inr rfl⟩
      · obtain ⟨b, hb, hbad⟩ := h
        have hbrest : b ∈ rest := by
          rcases List.mem_cons.mp hb with he | hr
          · subst he
            rcases hbad with hc | hc
            · exact absurd hc h1
            · exact absurd hc h2
          · exact hr
        obtain ⟨e, he, hfcu⟩ := cmdsLoop_fault cat sentence pos word rest
          (mainWordsLoop cat sentence pos word cmd (cat.mainWords cmd) acc)
          ⟨b, hbrest, hbad⟩
        exact ⟨e, by rw [cmdsLoop, if_neg h1, if_neg h2]; exact he, hfcu⟩

theorem detectLoop_fault (cat : Catalog) (sentence : List GoStr) (allowed : List Int)
    (hbad : ∃ b ∈ allowed, b ≤ 0 ∨ cat.highest < b) :
    ∀ (toks : List GoStr) (pos : Nat) (acc : List ℚ),
      (∃ w ∈ toks, w ≠ dontWord ∧ w ≠ cat.whatsIt) →
      ∃ e, detectLoop cat sentence allowed toks pos acc = .error e ∧ isFaultyCatalogUsage e
  | [], _, _, h => by
    obtain ⟨w, hw, _⟩ := h
    exact absurd hw (List.not_mem_nil w)
  | w0 :: rest, pos, acc, h => by
    by_cases h1 : w0 = dontWord
    · obtain ⟨w, hw, hprop⟩ := h
      have hwrest : w ∈ rest := by
        rcases List.mem_cons.mp hw with he | hr
        · rw [he] at hprop
          exact absurd h1 hprop.1
        · exact hr
      obtain ⟨e, he, hfcu⟩ := detectLoop_fault cat sentence allowed hbad rest (pos + 1)
        (acc ++ [spec_cmd_dont_CONST]) ⟨w, hwrest, hprop⟩
      exact ⟨e, by rw [detectLoop, if_pos h1]; exact he, hfcu⟩
    · by_cases h2 : w0 = cat.whatsIt
      · obtain ⟨w, hw, hprop⟩ := h
        have hwrest : w ∈ rest := by
          rcases List.mem_cons.mp hw with he | hr
          · rw [he] at hprop
            exact absurd h2 hprop.2
          · exact hr
        obtain ⟨e, he, hfcu⟩ := detectLoop_fault cat sentence allowed hbad rest (pos + 1)
          (acc ++ [goParseF32 cat.warnWhatsIt]) ⟨w, hwrest, hprop⟩
        exact ⟨e, by rw [detectLoop, if_neg h1, if_pos h2]; exact he, hfcu⟩
      · obtain ⟨e, he, hfcu⟩ := cmdsLoop_fault cat sentence pos w0 allowed acc hbad
        exact ⟨e, by rw [detectLoop, if_neg h1, if_neg h2, he], hfcu⟩

theorem main_fault_of_bad_id (ext : ExtDeps) (cat : Catalog) (s a : GoStr)
    (hbad : ∃ b ∈ allowedOf a, b ≤ 0 ∨ cat.highest < b)
    (hword : ∃ w ∈ finalTokens ext s, w ≠ dontWord ∧ w ≠ cat.whatsIt) :
    ∃ e, MainInternal ext cat s a = .error e ∧ isFaultyCatalogUsage e
      ∧ Main ext cat s a = ERR_CMD_DETECT ext ++ ext.fmtExc e := by
  obtain ⟨e, he, hfcu⟩ := detectLoop_fault cat (finalTokens ext s) (allowedOf a) hbad
    (finalTokens ext s) 0 [] hword
  have he2 : sentenceCmdsDetector cat (finalTokens ext s) (allowedOf a) = .error e := he
  obtain ⟨h1, h2⟩ := Main_error ext cat s a e he2
  exact ⟨e, h1, hfcu, h2⟩

/-- A concrete external-collaborator instance used to evaluate the pipeline on
closed inputs: correction and the two NLP passes leave the tokens unchanged,
codes render as their catalog strings, and an exception renders as its
message. -/
def wExt : ExtDeps where
  sentenceCorrection := id
  sentenceNLPPreparation := fun l _ => (l, [])
  nlpAnalyzer := fun l _ => l
  fmtF := fun q => if q = 3234 then ("3234").data else ("code").data
  modRetErrPrefix := ("3234_ERROR - ").data
  fmtExc := fun e => e.msg

/-- A concrete catalog instance with highest identifier 5 and one populated
command, identifier 4, triggered by the word on, whose single condition
alternative returns 3234 when result role 0 is the word wifi. -/
def wCat : Catalog where
  highest := 5
  whatsIt := ("it").data
  warnWhatsIt := ("-2").data
  mainWords := fun cmd => if cmd = 4 then [("on").data] else []
  oracle := fun _ _ _ => [[("wifi").data]]
  checkResults := fun _ _ _ => true
  conditionsReturn := fun cmd =>
    if cmd = 4 then [[[("0").data, ("wifi").data], [("3234").data]]] else []

/-- C3 is false as stated: with allowedCommandIds equal to the string 0 and a
corrected sentence consisting of the single negation token, the call completes
without any fault and returns the empty, non-error-prefixed string. -/
theorem c3_counterexample :
    MainInternal wExt wCat dontWord (("0").data) = .ok []
    ∧ Main wExt wCat dontWord (("0").data) = []
    ∧ ¬ (ERR_CMD_DETECT wExt <+: Main wExt wCat dontWord (("0").data)) := by
  have hdet : sentenceCmdsDetector wCat (finalTokens wExt dontWord)
      (allowedOf (("0").data)) = .ok [spec_cmd_dont_CONST] := by decide
  have htf : taskFilter [spec_cmd_dont_CONST] = [] := by
    rw [taskFilter_eq_markFilter]
    decide
  have hMI : MainInternal wExt wCat dontWord (("0").data) = .ok [] := by
    have h1 := MainInternal_ok wExt wCat dontWord (("0").data) [spec_cmd_dont_CONST] hdet
    rw [htf] at h1
    exact h1
  have hM : Main wExt wCat dontWord (("0").data) = [] := by
    simp only [Main, hMI]
  refine ⟨hMI, hM, ?_⟩
  rw [hM]
  decide

/-- C3 (amended): whenever some allowed identifier is non-positive or exceeds
the highest catalog identifier AND the corrected sentence contains at least
one token other than the negation marker and the anaphora placeholder, the
call fails with a FaultyCatalogUsage fault and the caller receives the
error-prefixed string; in particular allowedCommandIds equal to 0 with an
ordinary sentence yields this fault. -/
theorem c3_amended_validation_fault (ext : ExtDeps) (cat : Catalog) (s a : GoStr)
    (hbad : ∃ b ∈ allowedOf a, b ≤ 0 ∨ cat.highest < b)
    (hword : ∃ w ∈ finalTokens ext s, w ≠ dontWord ∧ w ≠ cat.whatsIt) :
    ∃ e, MainInternal ext cat s a = .error e ∧ isFaultyCatalogUsage e
      ∧ Main ext cat s a = ERR_CMD_DETECT ext ++ ext.fmtExc e :=
  main_fault_of_bad_id ext cat s a hbad hword

theorem c3_amended_validation_fault_witness :
    ∃ e, MainInternal wExt wCat (("test").data) (("0").data) = .error e
      ∧ isFaultyCatalogUsage e
      ∧ Main wExt wCat (("test").data) (("0").data) = ERR_CMD_DETECT wExt ++ wExt.fmtExc e :=
  c3_amended_validation_fault wExt wCat (("test").data) (("0").data)
    (by decide) (by decide)

/-- C4 is false as stated: the malformed allowed-commands string abc is parsed
best-effort to the identifier 0, and with the ordinary sentence test the call
produces an error-prefixed result because of that token. -/
theorem c4_counterexample :
    MainInternal wExt wCat (("test").data) (("abc").data) = .error excNonPositive
    ∧ ERR_CMD_DETECT wExt <+: Main wExt wCat (("test").data) (("abc").data) := by
  have hdet : sentenceCmdsDetector wCat (finalTokens wExt (("test").data))
      (allowedOf (("abc").data)) = .error excNonPositive := by decide
  have hMI : MainInternal wExt wCat (("test").data) (("abc").data)
      = .error excNonPositive := by
    simp only [MainInternal, hdet]
  have hM : Main wExt wCat (("test").data) (("abc").data)
      = ERR_CMD_DETECT wExt ++ wExt.fmtExc excNonPositive := by
    simp only [Main, hMI]
  refine ⟨hMI, ?_⟩
  rw [hM]
  exact ⟨wExt.fmtExc excNonPositive, rfl⟩

/-- C4 (amended): a malformed token of the allowed-commands string is
best-effort parsed to 0, and since 0 is a non-positive identifier the call is
fatal whenever the corrected sentence contains an ordinary token: the 0 trips
the identifier validation and the caller receives an error-prefixed result. -/
theorem c4_amended_malformed_fatal (ext : ExtDeps) (cat : Catalog) (s a : GoStr)
    (hmal : ∃ t ∈ splitSep CMDS_SEPARATOR a, goAtoiValid t = false)
    (hword : ∃ w ∈ finalTokens ext s, w ≠ dontWord ∧ w ≠ cat.whatsIt) :
    ∃ e, MainInternal ext cat s a = .error e ∧ isFaultyCatalogUsage e
      ∧ Main ext cat s a = ERR_CMD_DETECT ext ++ ext.fmtExc e := by
  obtain ⟨t, ht, hv⟩ := hmal
  have hbad : ∃ b ∈ allowedOf a, b ≤ 0 ∨ cat.highest < b :=
    ⟨0, List.mem_map.mpr ⟨t, ht, goAtoi_invalid t hv⟩, .inl le_rfl⟩
  exact main_fault_of_bad_id ext cat s a hbad hword

theorem c4_amended_malformed_fatal_witness :
    ∃ e, MainInternal wExt wCat (("hello").data) (("xyz").data) = .error e
      ∧ isFaultyCatalogUsage e
      ∧ Main wExt wCat (("hello").data) (("xyz").data) = ERR_CMD_DETECT wExt ++ wExt.fmtExc e :=
  c4_amended_malformed_fatal wExt wCat (("hello").data) (("xyz").data)
    (by decide) (by decide)

theorem detectLoop_special_ok (cat : Catalog) (sentence : List GoStr)
    (allowed : List Int) :
    ∀ (toks : List GoStr) (pos : Nat) (acc : List ℚ),
      (∀ w ∈ toks, w = dontWord ∨ w = cat.whatsIt) →
      ∃ l, detectLoop cat sentence allowed toks pos acc = .ok l
  | [], _, acc, _ => ⟨acc, rfl⟩
  | w :: rest, pos, acc, h => by
    have hrec := fun acc2 => detectLoop_special_ok cat sentence allowed rest (pos + 1)
      acc2 (fun v hv => h v (List.mem_cons_of_mem w hv))
    by_cases h1 : w = dontWord
    · obtain ⟨l, hl⟩ := hrec (acc ++ [spec_cmd_dont_CONST])
      exact ⟨l, by rw [detectLoop, if_pos h1]; exact hl⟩
    · have h2 : w = cat.whatsIt := (h w (List.mem_cons_self w rest)).resolve_left h1
      obtain ⟨l, hl⟩ := hrec (acc ++ [goParseF32 cat.warnWhatsIt])
      exact ⟨l, by rw [detectLoop, if_neg h1, if_pos h2]; exact hl⟩

/-- C10: the identifier validation runs only while an ordinary token is being
scanned — for every allowed-commands list containing a non-positive or
out-of-range identifier, a call whose corrected token sequence is empty or
consists solely of the negation marker and the anaphora placeholder completes
without any FaultyCatalogUsage fault, and the caller receives the ordinary
non-error result. -/
theorem c10_special_tokens_skip_validation (ext : ExtDeps) (cat : Catalog)
    (s a : GoStr)
    (hbad : ∃ b ∈ allowedOf a, b ≤ 0 ∨ cat.highest < b)
    (hw : ∀ w ∈ finalTokens ext s, w = dontWord ∨ w = cat.whatsIt) :
    ∃ out, MainInternal ext cat s a = .ok out ∧ Main ext cat s a = out := by
  obtain ⟨l, hl⟩ := detectLoop_special_ok cat (finalTokens ext s) (allowedOf a)
    (finalTokens ext s) 0 [] hw
  have hl2 : sentenceCmdsDetector cat (finalTokens ext s) (allowedOf a) = .ok l := hl
  have hMI := MainInternal_ok ext cat s a l hl2
  exact ⟨_, hMI, by simp only [Main, hMI]⟩

theorem c10_special_tokens_skip_validation_witness :
    ∃ out, MainInternal wExt wCat dontWord (("0, 99").data) = .ok out
      ∧ Main wExt wCat dontWord (("0, 99").data) = out :=
  c10_special_tokens_skip_validation wExt wCat dontWord (("0, 99").data)
    (by decide) (by decide)

/-- C6: on success the value returned is the post-processed code sequence
(Engine order, then the Negation Resolver) rendered and joined by the literal
separator with no trailing separator; and a sentence with valid allowed
identifiers and no trigger word of any allowed command yields exactly the
empty string. -/
theorem c6_output_format (ext : ExtDeps) (cat : Catalog) (s a : GoStr) :
    (∀ l, sentenceCmdsDetector cat (finalTokens ext s) (allowedOf a) = .ok l →
        MainInternal ext cat s a = .ok (joinSepSpec ((taskFilter l).map ext.fmtF)))
    ∧ ((∀ cmd ∈ allowedOf a, 0 < cmd ∧ cmd ≤ cat.highest) →
       (∀ w ∈ finalTokens ext s, w ≠ dontWord ∧ w ≠ cat.whatsIt
          ∧ ∀ cmd ∈ allowedOf a, w ∉ cat.mainWords cmd) →
       MainInternal ext cat s a = .ok []) := by
  refine ⟨fun l h => MainInternal_ok ext cat s a l h, fun hids htoks => ?_⟩
  have hdet : sentenceCmdsDetector cat (finalTokens ext s) (allowedOf a) = .ok [] :=
    detectLoop_ok_no_trigger cat (finalTokens ext s) (allowedOf a) hids
      (finalTokens ext s) 0 [] htoks
  have h1 := MainInternal_ok ext cat s a [] hdet
  rw [taskFilter_nil] at h1
  exact h1

theorem c6_output_format_witness :
    MainInternal wExt wCat (("turn on wifi").data) (("4").data) = .ok (("3234").data)
    ∧ MainInternal wExt wCat (("hello world").data) (("4").data) = .ok [] := by
  constructor
  · have h := (c6_output_format wExt wCat (("turn on wifi").data) (("4").data)).1
      [3234] (by decide)
    rw [show taskFilter [3234] = [3234] from by rw [taskFilter_eq_markFilter]; decide] at h
    exact h
  · exact (c6_output_format wExt wCat (("hello world").data) (("4").data)).2
      (by decide) (by decide)

theorem getD_set_ne {α : Type} (l : List α) (i j : Nat) (v d : α) (h : ¬ i = j) :
    (l.set i v).getD j d = l.getD j d := by
  simp [List.getD_eq_getElem?_getD, List.getElem?_set, h]

theorem getD_set_self {α : Type} (l : List α) (i : Nat) (v d : α) (h : i < l.length) :
    (l.set i v).getD i d = v := by
  simp [List.getD_eq_getElem?_getD, List.getElem?_set, h]

/-- The prefix of the marking pass of removeRepeatedCmds up to one position. -/
def rrFold (l : List GoStr) (k : Nat) : List GoStr :=
  (List.range k).foldl (rrStep l.length) l

/-- The value the marking pass of removeRepeatedCmds assigns to one position:
the termination mark when the next original element exists and is equal,
otherwise the original element. -/
def rrSpecAt (l : List GoStr) (j : Nat) : GoStr :=
  if j + 1 < l.length ∧ l.getD (j + 1) [] = l.getD j [] then MARK_TERMINATION_STR
  else l.getD j []

theorem rrFold_spec (l : List GoStr) :
    ∀ k, k ≤ l.length →
      (rrFold l k).length = l.length
      ∧ (∀ j, k ≤ j → (rrFold l k).getD j [] = l.getD j [])
      ∧ (∀ j, j < k → (rrFold l k).getD j [] = rrSpecAt l j) := by
  intro k
  induction k with
  | zero => exact fun _ => ⟨rfl, fun _ _ => rfl, fun j hj => absurd hj (Nat.not_lt_zero j)⟩
  | succ k ih =>
    intro hk1
    obtain ⟨ihlen, ihhi, ihlo⟩ := ih (by omega)
    have hkn : k < l.length := by omega
    have hstep : rrFold l (k + 1) = rrStep l.length (rrFold l k) k := by
      rw [rrFold, List.range_succ, List.foldl_append, List.foldl_cons, List.foldl_nil]
      rfl
    have hcur1 : (rrFold l k).getD (k + 1) [] = l.getD (k + 1) [] := ihhi (k + 1) (by omega)
    have hcur0 : (rrFold l k).getD k [] = l.getD k [] := ihhi k le_rfl
    by_cases hcond : k ≠ l.length - 1 ∧ l.getD (k + 1) [] = l.getD k []
    · have hstep2 : rrFold l (k + 1) = (rrFold l k).set k MARK_TERMINATION_STR := by
        rw [hstep, rrStep, if_pos ⟨hcond.1, by rw [hcur1, hcur0]; exact hcond.2⟩]
      refine ⟨by rw [hstep2, List.length_set, ihlen], fun j hj => ?_, fun j hj => ?_⟩
      · rw [hstep2, getD_set_ne _ _ _ _ _ (by omega), ihhi j (by omega)]
      · rcases Nat.lt_succ_iff_lt_or_eq.mp hj with hjk | hjk
        · rw [hstep2, getD_set_ne _ _ _ _ _ (by omega), ihlo j hjk]
        · subst hjk
          rw [hstep2, getD_set_self _ _ _ _ (by omega), rrSpecAt,
            if_pos ⟨by omega, hcond.2⟩]
    · have hstep2 : rrFold l (k + 1) = rrFold l k := by
        rw [hstep, rrStep, if_neg (fun hc => hcond ⟨hc.1, by rw [← hcur1, ← hcur0]; exact hc.2⟩)]
      refine ⟨by rw [hstep2, ihlen], fun j hj => ?_, fun j hj => ?_⟩
      · rw [hstep2, ihhi j (by omega)]
      · rcases Nat.lt_succ_iff_lt_or_eq.mp hj with hjk | hjk
        · rw [hstep2, ihlo j hjk]
        · subst hjk
          rw [hstep2, hcur0, rrSpecAt, if_neg (fun hc => hcond ⟨by omega, hc.2⟩)]

theorem rrMark_getD (l : List GoStr) :
    (rrMark l).length = l.length ∧ ∀ j, j < l.length → (rrMark l).getD j [] = rrSpecAt l j := by
  obtain ⟨hlen, _, hlo⟩ := rrFold_spec l l.length le_rfl
  exact ⟨hlen, hlo⟩

/-- The structural reading of the marking pass of removeRepeatedCmds. -/
def rrMarkStruct : List GoStr → List GoStr
  | [] => []
  | [a] => [a]
  | a :: b :: t => (if b = a then MARK_TERMINATION_STR else a) :: rrMarkStruct (b :: t)

theorem rrSpecAt_cons_succ (a : GoStr) (l : List GoStr) (j : Nat) :
    rrSpecAt (a :: l) (j + 1) = rrSpecAt l j := by
  rw [rrSpecAt, rrSpecAt]
  have h1 : j + 1 + 1 < (a :: l).length ↔ j + 1 < l.length := by
    simp only [List.length_cons]
    omega
  rw [List.getD_cons_succ, List.getD_cons_succ]
  by_cases hc : j + 1 < l.length ∧ l.getD (j + 1) [] = l.getD j []
  · rw [if_pos ⟨h1.mpr hc.1, hc.2⟩, if_pos hc]
  · rw [if_neg (fun hcc => hc ⟨h1.mp hcc.1, hcc.2⟩), if_neg hc]

theorem rrSpecAt_cons2_zero (a b : GoStr) (t : List GoStr) :
    rrSpecAt (a :: b :: t) 0 = if b = a then MARK_TERMINATION_STR else a := by
  rw [rrSpecAt]
  have h1 : 0 + 1 < (a :: b :: t).length := by
    simp only [List.length_cons]
    omega
  by_cases hba : b = a
  · rw [if_pos ⟨h1, by rw [List.getD_cons_succ, List.getD_cons_zero, List.getD_cons_zero, hba]⟩,
      if_pos hba]
  · rw [if_neg ?hn, if_neg hba, List.getD_cons_zero]
    case hn =>
      intro hc
      rw [List.getD_cons_succ, List.getD_cons_zero, List.getD_cons_zero] at hc
      exact hba hc.2

theorem rrMarkStruct_eq_map :
    ∀ l : List GoStr, rrMarkStruct l = (List.range l.length).map (rrSpecAt l)
  | [] => rfl
  | [a] => by
    simp [rrMarkStruct, rrSpecAt, List.range_succ]
  | a :: b :: t => by
    have ih := rrMarkStruct_eq_map (b :: t)
    rw [rrMarkStruct, ih]
    show _ = (List.range ((b :: t).length + 1)).map (rrSpecAt (a :: b :: t))
    rw [List.range_succ_eq_map, List.map_cons, List.map_map]
    congr 1
    · exact (rrSpecAt_cons2_zero a b t).symm
    · apply List.map_congr_left
      intro j _
      exact (rrSpecAt_cons_succ a (b :: t) j).symm

theorem rrMark_eq_struct (l : List GoStr) : rrMark l = rrMarkStruct l := by
  obtain ⟨hlen, hval⟩ := rrMark_getD l
  rw [rrMarkStruct_eq_map]
  apply List.ext_getElem
  · rw [hlen, List.length_map, List.length_range]
  · intro j h1 h2
    have hj : j < l.length := by rwa [hlen] at h1
    rw [List.getElem_map, List.getElem_range,
      ← List.getD_eq_getElem (rrMark l) [] h1]
    exact hval j hj

theorem filter_rrMarkStruct_eq_dedupe :
    ∀ l : List GoStr, MARK_TERMINATION_STR ∉ l →
      (rrMarkStruct l).filter (fun c => decide (c ≠ MARK_TERMINATION_STR)) = dedupeSpec l
  | [], _ => rfl
  | [a], h => by
    have ha : a ≠ MARK_TERMINATION_STR := fun he => h (he ▸ List.mem_singleton_self a)
    simp [rrMarkStruct, dedupeSpec, List.filter_cons, ha]
  | a :: b :: t, h => by
    have ha : a ≠ MARK_TERMINATION_STR :=
      fun he => h (he ▸ List.mem_cons_self a (b :: t))
    have ih := filter_rrMarkStruct_eq_dedupe (b :: t)
      (fun hm => h (List.mem_cons_of_mem a hm))
    by_cases hba : b = a
    · rw [rrMarkStruct, if_pos hba, dedupeSpec, if_pos hba.symm, List.filter_cons,
        if_neg (by decide), ih]
    · rw [rrMarkStruct, if_neg hba, dedupeSpec, if_neg (fun he => hba he.symm),
        List.filter_cons, if_pos (by simp [ha]), ih]

theorem dedupeSpec_sublist : ∀ l : List GoStr, List.Sublist (dedupeSpec l) l
  | [] => List.Sublist.refl []
  | [a] => List.Sublist.refl [a]
  | a :: b :: t => by
    rw [dedupeSpec]
    by_cases hba : a = b
    · rw [if_pos hba]
      exact (dedupeSpec_sublist (b :: t)).cons a
    · rw [if_neg hba]
      exact (dedupeSpec_sublist (b :: t)).cons₂ a

theorem strip_foldl_eq_join_id (l : List GoStr) :
    stripTrailingSep (l.foldl (fun a c => a ++ c ++ CMDS_SEPARATOR) []) = joinSepSpec l := by
  have h := strip_foldl_eq_join (fun c : GoStr => c) l
  simpa using h

/-- C8: the Deduplicator deletes exactly the elements immediately followed by
an element of identical value — so a run of equal values collapses to its last
element in one pass — the survivors keep their relative order, and on the
joined string removeRepeatedCmds returns exactly the deduplicated pieces
joined by the separator.  The reserved internal marker string is excluded as
an element value, being unreachable from rendered command codes. -/
theorem c8_deduplicator (l : List GoStr) (h : MARK_TERMINATION_STR ∉ l) :
    removeRepeatedCmdsList l = dedupeSpec l
    ∧ List.Sublist (dedupeSpec l) l
    ∧ ∀ s, splitSep CMDS_SEPARATOR s = l →
        removeRepeatedCmds s = joinSepSpec (dedupeSpec l) := by
  have h1 : removeRepeatedCmdsList l = dedupeSpec l := by
    rw [removeRepeatedCmdsList, rrMark_eq_struct]
    exact filter_rrMarkStruct_eq_dedupe l h
  refine ⟨h1, dedupeSpec_sublist l, fun s hs => ?_⟩
  show stripTrailingSep ((rrMark (splitSep CMDS_SEPARATOR s)).foldl
    (fun acc c => if c ≠ MARK_TERMINATION_STR then acc ++ c ++ CMDS_SEPARATOR else acc) []) = _
  rw [hs, foldl_cond_append]
  have h2 : (rrMark l).filter (fun c => decide (c ≠ MARK_TERMINATION_STR)) = dedupeSpec l := by
    rw [← removeRepeatedCmdsList]
    exact h1
  rw [h2, strip_foldl_eq_join_id]

theorem c8_deduplicator_witness :
    removeRepeatedCmdsList [("a").data, ("a").data, ("a").data, ("b").data]
      = dedupeSpec [("a").data, ("a").data, ("a").data, ("b").data]
    ∧ dedupeSpec [("a").data, ("a").data, ("a").data, ("b").data]
      = [("a").data, ("b").data] :=
  ⟨(c8_deduplicator [("a").data, ("a").data, ("a").data, ("b").data] (by decide)).1,
    by decide⟩

theorem foldl_set_zero :
    ∀ (pos : List Nat) (b : List ℚ), (∀ i ∈ pos, i < b.length) →
      (pos.foldl (fun a i => a.set i MARK_TERMINATION_FLOAT32) b).length = b.length
      ∧ ∀ j, (pos.foldl (fun a i => a.set i MARK_TERMINATION_FLOAT32) b).getD j 0
          = if j ∈ pos then 0 else b.getD j 0
  | [], _, _ => ⟨rfl, fun j => by simp⟩
  | i :: rest, b, hb => by
    rw [List.foldl_cons]
    obtain ⟨hlen, hval⟩ := foldl_set_zero rest (b.set i MARK_TERMINATION_FLOAT32)
      (fun x hx => by rw [List.length_set]; exact hb x (List.mem_cons_of_mem i hx))
    refine ⟨by rw [hlen, List.length_set], fun j => ?_⟩
    rw [hval j]
    by_cases hjr : j ∈ rest
    · rw [if_pos hjr, if_pos (List.mem_cons_of_mem i hjr)]
    · rw [if_neg hjr]
      by_cases hji : j = i
      · subst hji
        rw [getD_set_self _ _ _ _ (hb j (List.mem_cons_self j rest)),
          if_pos (List.mem_cons_self j rest)]
        rfl
      · rw [getD_set_ne _ _ _ _ _ (fun he => hji he.symm),
          if_neg (by simp [List.mem_cons, hji, hjr])]

theorem before_val (s : List ℚ) (k : Nat) (cur1 : List ℚ) (m1 : List Nat)
    (hk : k < s.length)
    (hlen : cur1.length = s.length)
    (hval : ∀ j, cur1.getD j 0 = if j ∈ m1 then 0 else s.getD j 0) :
    (tfMarkBefore cur1 k).length = s.length
    ∧ ∀ j, (tfMarkBefore cur1 k).getD j 0
        = if j ∈ c2Before s m1 k then 0 else s.getD j 0 := by
  rw [tfMarkBefore, c2Before]
  by_cases h1 : 0 < k ∧ 0 < s.getD (k - 1) 0
  · by_cases h2 : (k - 1) ∈ m1
    · have hc : ¬(0 < k ∧ 0 < cur1.getD (k - 1) 0) := by
        rw [hval (k - 1), if_pos h2]
        intro hcc
        exact lt_irrefl 0 hcc.2
      rw [if_neg hc, if_pos h1]
      refine ⟨hlen, fun j => ?_⟩
      rw [hval j]
      by_cases hj : j ∈ m1
      · rw [if_pos hj, if_pos (List.mem_cons_of_mem _ hj)]
      · rw [if_neg hj]
        by_cases hjk : j = k - 1
        · exact absurd h2 (hjk ▸ hj)
        · rw [if_neg (by simp [List.mem_cons, hjk, hj])]
    · have hc : 0 < k ∧ 0 < cur1.getD (k - 1) 0 :=
        ⟨h1.1, by rw [hval (k - 1), if_neg h2]; exact h1.2⟩
      rw [if_pos hc, if_pos h1]
      refine ⟨by rw [List.length_set, hlen], fun j => ?_⟩
      by_cases hjk : j = k - 1
      · subst hjk
        rw [getD_set_self _ _ _ _ (by rw [hlen]; omega),
          if_pos (List.mem_cons_self _ _)]
        rfl
      · rw [getD_set_ne _ _ _ _ _ (fun he => hjk he.symm), hval j]
        by_cases hj : j ∈ m1
        · rw [if_pos hj, if_pos (List.mem_cons_of_mem _ hj)]
        · rw [if_neg hj, if_neg (by simp [List.mem_cons, hjk, hj])]
  · have hc : ¬(0 < k ∧ 0 < cur1.getD (k - 1) 0) := by
      intro hcc
      apply h1
      refine ⟨hcc.1, ?_⟩
      have hv := hcc.2
      rw [hval (k - 1)] at hv
      by_cases h2 : (k - 1) ∈ m1
      · rw [if_pos h2] at hv
        exact absurd hv (lt_irrefl 0)
      · rwa [if_neg h2] at hv
    rw [if_neg hc, if_neg h1]
    exact ⟨hlen, hval⟩

theorem c2Before_cases (s : List ℚ) (m1 : List Nat) (k : Nat) :
    c2Before s m1 k = m1 ∨ c2Before s m1 k = (k - 1) :: m1 := by
  rw [c2Before]
  by_cases h : 0 < k ∧ 0 < s.getD (k - 1) 0
  · rw [if_pos h]
    exact .inr rfl
  · rw [if_neg h]
    exact .inl rfl

/-- The prefix of the marking pass of taskFilter after scanning some indices. -/
def tfFold (s : List ℚ) (k : Nat) : List ℚ := (List.range k).foldl (tfStep s.length) s

/-- The prefix of the mark-set scan after the same indices. -/
def c2Fold (s : List ℚ) (k : Nat) : List Nat := (List.range k).foldl (c2Step s) []

/-- The correspondence invariant between the working slice of the marking pass
of taskFilter and the mark set of its mark-set reading, after the first k
indices have been scanned: lengths agree, marks are bounded by the scan
position and by the length, a mark at the scan frontier is only ever placed on
a positive value, every dont already scanned is marked, and the working slice
holds 0 exactly at the marked positions and the original values elsewhere. -/
def tfInv (s : List ℚ) (k : Nat) (cur : List ℚ) (marks : List Nat) : Prop :=
  cur.length = s.length
  ∧ (∀ j ∈ marks, j < s.length)
  ∧ (∀ j ∈ marks, j ≤ k)
  ∧ (∀ j ∈ marks, k ≤ j → 0 < s.getD j 0)
  ∧ (∀ j, j < k → s.getD j 0 = spec_cmd_dont_CONST → j ∈ marks)
  ∧ (∀ j, cur.getD j 0 = if j ∈ marks then 0 else s.getD j 0)

theorem before_inv (s : List ℚ) (k : Nat) (cur1 : List ℚ) (m1 : List Nat)
    (hk : k < s.length)
    (hlen1 : cur1.length = s.length)
    (hval1 : ∀ j, cur1.getD j 0 = if j ∈ m1 then 0 else s.getD j 0)
    (hm1lt : ∀ j ∈ m1, j < s.length)
    (hm1le : ∀ j ∈ m1, j ≤ k)
    (hd1 : ∀ j, j < k + 1 → s.getD j 0 = spec_cmd_dont_CONST → j ∈ m1) :
    tfInv s (k + 1) (tfMarkBefore cur1 k) (c2Before s m1 k) := by
  obtain ⟨hl, hv⟩ := before_val s k cur1 m1 hk hlen1 hval1
  rcases c2Before_cases s m1 k with hcb | hcb <;> rw [hcb] at hv ⊢
  · exact ⟨hl, hm1lt, fun j hj => by have := hm1le j hj; omega,
      fun j hj hge => absurd hge (by have := hm1le j hj; omega),
      fun j hj hdj => hd1 j hj hdj, hv⟩
  · refine ⟨hl, ?_, ?_, ?_, ?_, hv⟩
    · intro j hj
      rcases List.mem_cons.mp hj with he | hm
      · omega
      · exact hm1lt j hm
    · intro j hj
      rcases List.mem_cons.mp hj with he | hm
      · omega
      · have := hm1le j hm
        omega
    · intro j hj hge
      exfalso
      rcases List.mem_cons.mp hj with he | hm
      · omega
      · have := hm1le j hm
        omega
    · exact fun j hj hdj => List.mem_cons_of_mem _ (hd1 j hj hdj)

theorem tfInv_step (s : List ℚ) (k : Nat) (cur : List ℚ) (marks : List Nat)
    (hk : k < s.length) (hinv : tfInv s k cur marks) :
    tfInv s (k + 1) (tfStep s.length cur k) (c2Step s marks k) := by
  obtain ⟨hlen, hmlt, hmle, hpos, hdont, hval⟩ := hinv
  by_cases hd : s.getD k 0 = spec_cmd_dont_CONST
  · have hknm : k ∉ marks := by
      intro hkm
      have h1 := hpos k hkm le_rfl
      rw [hd] at h1
      exact absurd h1 (by decide)
    have hcur_eq : cur.getD k 0 = spec_cmd_dont_CONST := by
      rw [hval k, if_neg hknm]
      exact hd
    simp only [tfStep, c2Step]
    rw [if_pos hcur_eq, if_pos hd]
    have hlen1 : (cur.set k MARK_TERMINATION_FLOAT32).length = s.length := by
      rw [List.length_set, hlen]
    have hval1 : ∀ j, (cur.set k MARK_TERMINATION_FLOAT32).getD j 0
        = if j ∈ k :: marks then 0 else s.getD j 0 := by
      intro j
      by_cases hjk : j = k
      · subst hjk
        rw [getD_set_self _ _ _ _ (by rw [hlen]; exact hk),
          if_pos (List.mem_cons_self _ _)]
        rfl
      · rw [getD_set_ne _ _ _ _ _ (fun he => hjk he.symm), hval j]
        by_cases hj : j ∈ marks
        · rw [if_pos hj, if_pos (List.mem_cons_of_mem _ hj)]
        · rw [if_neg hj, if_neg (by simp [List.mem_cons, hjk, hj])]
    have hm1lt : ∀ j ∈ k :: marks, j < s.length := by
      intro j hj
      rcases List.mem_cons.mp hj with he | hm
      · omega
      · exact hmlt j hm
    have hm1le : ∀ j ∈ k :: marks, j ≤ k := by
      intro j hj
      rcases List.mem_cons.mp hj with he | hm
      · omega
      · exact hmle j hm
    have hd1 : ∀ j, j < k + 1 → s.getD j 0 = spec_cmd_dont_CONST → j ∈ k :: marks := by
      intro j hj hdj
      rcases Nat.lt_succ_iff_lt_or_eq.mp hj with hjk | hjk
      · exact List.mem_cons_of_mem _ (hdont j hjk hdj)
      · subst hjk
        exact List.mem_cons_self _ _
    by_cases hlast : k + 1 < s.length
    · rw [if_pos (show k ≠ s.length - 1 by omega), if_pos hlast]
      have hk1nm : k + 1 ∉ (k :: marks) := by
        intro hm
        rcases List.mem_cons.mp hm with he | hm2
        · omega
        · have := hmle _ hm2
          omega
      have hnext : (cur.set k MARK_TERMINATION_FLOAT32).getD (k + 1) 0
          = s.getD (k + 1) 0 := by
        rw [hval1 (k + 1), if_neg hk1nm]
      rw [hnext]
      by_cases hnp : 0 < s.getD (k + 1) 0
      · rw [if_pos hnp, if_pos hnp]
        have hmem : ∀ j, j ∈ tfScanPos (cur.set k MARK_TERMINATION_FLOAT32) k (s.getD (k + 1) 0)
            ↔ j ∈ (List.range k).filter
              (fun j => decide (s.getD j 0 = s.getD (k + 1) 0 ∧ j ∉ marks)) := by
          intro j
          rw [tfScanPos, List.mem_filter, List.mem_filter, List.mem_range, List.mem_range]
          constructor
          · rintro ⟨hjlt, hjv⟩
            rw [decide_eq_true_eq] at hjv
            rw [hval1 j] at hjv
            by_cases hjm : j ∈ k :: marks
            · rw [if_pos hjm] at hjv
              exact absurd hjv.symm (ne_of_gt hnp)
            · rw [if_neg hjm] at hjv
              have hjk : j ≠ k := fun he => hjm (he ▸ List.mem_cons_self _ _)
              refine ⟨by omega, decide_eq_true_eq.mpr ⟨hjv, fun hjmm => hjm (List.mem_cons_of_mem _ hjmm)⟩⟩
          · rintro ⟨hjlt, hjv⟩
            rw [decide_eq_true_eq] at hjv
            have hjm : j ∉ k :: marks := by
              intro hm
              rcases List.mem_cons.mp hm with he | hm2
              · omega
              · exact hjv.2 hm2
            refine ⟨by omega, ?_⟩
            rw [decide_eq_true_eq, hval1 j, if_neg hjm]
            exact hjv.1
        have hemp : ((tfScanPos (cur.set k MARK_TERMINATION_FLOAT32) k (s.getD (k + 1) 0)).isEmpty = true)
            ↔ (((List.range k).filter
              (fun j => decide (s.getD j 0 = s.getD (k + 1) 0 ∧ j ∉ marks))).isEmpty = true) := by
          rw [List.isEmpty_iff, List.isEmpty_iff, List.eq_nil_iff_forall_not_mem,
            List.eq_nil_iff_forall_not_mem]
          exact ⟨fun h j hj => h j ((hmem j).mpr hj), fun h j hj => h j ((hmem j).mp hj)⟩
        by_cases hoe : ((List.range k).filter
            (fun j => decide (s.getD j 0 = s.getD (k + 1) 0 ∧ j ∉ marks))).isEmpty = true
        · rw [if_pos (hemp.mpr hoe), if_pos hoe]
          exact before_inv s k _ _ hk hlen1 hval1 hm1lt hm1le hd1
        · rw [if_neg (fun hc => hoe (hemp.mp hc)), if_neg hoe]
          obtain ⟨hfl, hfv⟩ := foldl_set_zero
            (tfScanPos (cur.set k MARK_TERMINATION_FLOAT32) k (s.getD (k + 1) 0))
            ((cur.set k MARK_TERMINATION_FLOAT32).set (k + 1) MARK_TERMINATION_FLOAT32)
            (by
              intro i hi
              have := (hmem i).mp hi
              rw [List.mem_filter, List.mem_range] at this
              rw [List.length_set, hlen1]
              omega)
          refine ⟨by rw [hfl, List.length_set, hlen1], ?_, ?_, ?_, ?_, ?_⟩
          · intro j hj
            rcases List.mem_cons.mp hj with he | hm
            · omega
            rcases List.mem_append.mp hm with hm2 | hm2
            · have := List.mem_filter.mp hm2
              rw [List.mem_range] at this
              omega
            · exact hm1lt j hm2
          · intro j hj
            rcases List.mem_cons.mp hj with he | hm
            · omega
            rcases List.mem_append.mp hm with hm2 | hm2
            · have := List.mem_filter.mp hm2
              rw [List.mem_range] at this
              omega
            · have := hm1le j hm2
              omega
          · intro j hj hge
            rcases List.mem_cons.mp hj with he | hm
            · rw [he]
              exact hnp
            rcases List.mem_append.mp hm with hm2 | hm2
            · have := List.mem_filter.mp hm2
              rw [List.mem_range] at this
              omega
            · have := hm1le j hm2
              omega
          · intro j hj hdj
            exact List.mem_cons_of_mem _ (List.mem_append.mpr (.inr (hd1 j hj hdj)))
          · intro j
            rw [hfv j]
            by_cases hjp : j ∈ tfScanPos (cur.set k MARK_TERMINATION_FLOAT32) k (s.getD (k + 1) 0)
            · have hbig : j ∈ (k + 1) ::
                  (List.filter (fun j => decide (s.getD j 0 = s.getD (k + 1) 0 ∧ j ∉ marks))
                    (List.range k) ++ k :: marks) :=
                List.mem_cons_of_mem _ (List.mem_append.mpr (.inl ((hmem j).mp hjp)))
              rw [if_pos hjp]
              exact (if_pos hbig).symm
            · rw [if_neg hjp]
              by_cases hjk1 : j = k + 1
              · subst hjk1
                have hbig : (k + 1) ∈ (k + 1) ::
                    (List.filter (fun j => decide (s.getD j 0 = s.getD (k + 1) 0 ∧ j ∉ marks))
                      (List.range k) ++ k :: marks) :=
                  List.mem_cons_self _ _
                rw [getD_set_self _ _ _ _ (by rw [hlen1]; exact hlast)]
                exact (if_pos hbig).symm
              · rw [getD_set_ne _ _ _ _ _ (fun he => hjk1 he.symm), hval1 j]
                by_cases hjm : j ∈ k :: marks
                · have hbig : j ∈ (k + 1) ::
                      (List.filter (fun j => decide (s.getD j 0 = s.getD (k + 1) 0 ∧ j ∉ marks))
                        (List.range k) ++ k :: marks) :=
                    List.mem_cons_of_mem _ (List.mem_append.mpr (.inr hjm))
                  rw [if_pos hjm]
                  exact (if_pos hbig).symm
                · have hbig : j ∉ (k + 1) ::
                      (List.filter (fun j => decide (s.getD j 0 = s.getD (k + 1) 0 ∧ j ∉ marks))
                        (List.range k) ++ k :: marks) := by
                    intro hc
                    rcases List.mem_cons.mp hc with he | hm
                    · exact hjk1 he
                    rcases List.mem_append.mp hm with hm2 | hm2
                    · exact hjp ((hmem j).mpr hm2)
                    · exact hjm hm2
                  rw [if_neg hjm]
                  exact (if_neg hbig).symm
      · rw [if_neg hnp, if_neg hnp]
        exact ⟨hlen1, hm1lt,
          fun j hj => by have := hm1le j hj; omega,
          fun j hj hge => absurd hge (by have := hm1le j hj; omega),
          hd1, hval1⟩
    · rw [if_neg (show ¬(k ≠ s.length - 1) by omega), if_neg hlast]
      exact before_inv s k _ _ hk hlen1 hval1 hm1lt hm1le hd1
  · have hcur_ne : ¬(cur.getD k 0 = spec_cmd_dont_CONST) := by
      rw [hval k]
      by_cases hkm : k ∈ marks
      · rw [if_pos hkm]
        exact fun hc => absurd hc.symm (by decide)
      · rw [if_neg hkm]
        exact hd
    simp only [tfStep, c2Step]
    rw [if_neg hcur_ne, if_neg hd]
    refine ⟨hlen, hmlt, fun j hj => by have := hmle j hj; omega, ?_, ?_, hval⟩
    · intro j hj hge
      exact hpos j hj (by omega)
    · intro j hj hdj
      rcases Nat.lt_succ_iff_lt_or_eq.mp hj with hjk | hjk
      · exact hdont j hjk hdj
      · subst hjk
        exact absurd hdj hd

theorem tfInv_holds (s : List ℚ) : ∀ k, k ≤ s.length → tfInv s k (tfFold s k) (c2Fold s k) := by
  intro k
  induction k with
  | zero =>
    intro _
    exact ⟨rfl, fun j hj => absurd hj (List.not_mem_nil j),
      fun j hj => absurd hj (List.not_mem_nil j),
      fun j hj => absurd hj (List.not_mem_nil j),
      fun j hj => absurd hj (Nat.not_lt_zero j),
      fun j => by
        rw [show c2Fold s 0 = ([] : List Nat) from rfl, if_neg (List.not_mem_nil j)]
        rfl⟩
  | succ k ih =>
    intro hk1
    have hk : k < s.length := by omega
    have hfold : tfFold s (k + 1) = tfStep s.length (tfFold s k) k := by
      simp only [tfFold, List.range_succ, List.foldl_append, List.foldl_cons, List.foldl_nil]
    have hcfold : c2Fold s (k + 1) = c2Step s (c2Fold s k) k := by
      simp only [c2Fold, List.range_succ, List.foldl_append, List.foldl_cons, List.foldl_nil]
    rw [hfold, hcfold]
    exact tfInv_step s k (tfFold s k) (c2Fold s k) hk (ih (by omega))

theorem tfMark_char (s : List ℚ) :
    (tfMark s).length = s.length
    ∧ (∀ j, (tfMark s).getD j 0 = if j ∈ c2Marks s then 0 else s.getD j 0)
    ∧ (∀ j, j < s.length → s.getD j 0 = spec_cmd_dont_CONST → j ∈ c2Marks s) := by
  obtain ⟨hlen, _, _, _, hdont, hval⟩ := tfInv_holds s s.length le_rfl
  exact ⟨hlen, hval, hdont⟩

theorem tfMark_eq_map (s : List ℚ) :
    tfMark s = (List.range s.length).map
      (fun j => if j ∈ c2Marks s then 0 else s.getD j 0) := by
  obtain ⟨hlen, hval, _⟩ := tfMark_char s
  apply List.ext_getElem
  · rw [hlen, List.length_map, List.length_range]
  · intro j h1 h2
    rw [List.getElem_map, List.getElem_range, ← List.getD_eq_getElem (tfMark s) 0 h1]
    exact hval j

theorem taskFilter_eq_spec (s : List ℚ) : taskFilter s = taskFilterSpec s := by
  rw [taskFilter_eq_markFilter, tfMark_eq_map, List.filter_map, taskFilterSpec]
  have hfil : (List.range s.length).filter
      ((fun x => decide (x ≠ MARK_TERMINATION_FLOAT32))
        ∘ (fun j => if j ∈ c2Marks s then 0 else s.getD j 0))
      = (List.range s.length).filter (fun j => decide (j ∉ c2Marks s ∧ s.getD j 0 ≠ 0)) := by
    apply List.filter_congr
    intro j _
    simp only [Function.comp_apply]
    by_cases hj : j ∈ c2Marks s
    · rw [if_pos hj]
      simp [MARK_TERMINATION_FLOAT32, hj]
    · rw [if_neg hj]
      simp [MARK_TERMINATION_FLOAT32, hj]
  rw [hfil]
  apply List.map_congr_left
  intro j hj
  rw [List.mem_filter] at hj
  have hq := hj.2
  rw [decide_eq_true_eq] at hq
  rw [if_neg hq.1]

theorem tfMark_noop (t : List ℚ) (h : ∀ x ∈ t, x ≠ spec_cmd_dont_CONST) :
    tfMark t = t := by
  have hfold : ∀ k, k ≤ t.length → tfFold t k = t := by
    intro k
    induction k with
    | zero => exact fun _ => rfl
    | succ k ih =>
      intro hk1
      have hk : k < t.length := by omega
      have hstep : tfFold t (k + 1) = tfStep t.length (tfFold t k) k := by
        simp only [tfFold, List.range_succ, List.foldl_append, List.foldl_cons, List.foldl_nil]
      rw [hstep, ih (by omega)]
      simp only [tfStep]
      rw [if_neg ?_]
      have hget : t.getD k 0 = t[k] := List.getD_eq_getElem t 0 hk
      rw [hget]
      exact h _ (List.getElem_mem hk)
  exact hfold t.length le_rfl

/-- C2 is false as stated: on the sequence consisting of a positive code
followed by two DONT sentinels, the claimed algorithm marks the positive code
through its fallback rule for a non-positive following element, while
taskFilter leaves it untouched — the code applies that fallback only when the
DONT is the final element or when the following element is a positive code
with no earlier occurrence. -/
theorem c2_counterexample :
    taskFilter [5, spec_cmd_dont_CONST, spec_cmd_dont_CONST] = [5]
    ∧ taskFilterClaim [5, spec_cmd_dont_CONST, spec_cmd_dont_CONST] = []
    ∧ taskFilter [5, spec_cmd_dont_CONST, spec_cmd_dont_CONST]
      ≠ taskFilterClaim [5, spec_cmd_dont_CONST, spec_cmd_dont_CONST] := by
  refine ⟨?_, by decide, ?_⟩
  · rw [taskFilter_eq_markFilter]
    decide
  · rw [taskFilter_eq_markFilter]
    decide

/-- C2 (amended): taskFilter implements the mark-then-compact algorithm in
which marking overwrites an element with the reserved value 0 on the working
slice: every DONT is marked; when the element following the DONT exists and is
a positive code c, either every not-yet-marked occurrence of c strictly before
the DONT together With the following element is marked (when such an
occurrence exists), or the single element before the DONT is marked if it is
positive on the working slice; when the following element exists but is not a
positive code, nothing besides the DONT is marked; when the DONT is last, the
only-if-positive predecessor rule applies; finally the compaction removes
every element equal to 0 — the marked ones and any original 0 — preserving the
order of the survivors. -/
theorem c2_amended_negation_resolver (s : List ℚ) : taskFilter s = taskFilterSpec s :=
  taskFilter_eq_spec s

/-- C7: the Negation Resolver is idempotent — no DONT sentinel survives one
pass (nor does the mark value 0), so a second pass leaves its output
unchanged. -/
theorem c7_negation_resolver_idempotent (s : List ℚ) :
    taskFilter (taskFilter s) = taskFilter s := by
  have hmem : ∀ x ∈ taskFilter s, x ≠ 0 ∧ x ≠ spec_cmd_dont_CONST := by
    intro x hx
    rw [taskFilter_eq_spec, taskFilterSpec] at hx
    obtain ⟨j, hj, rfl⟩ := List.mem_map.mp hx
    rw [List.mem_filter] at hj
    have hq := hj.2
    rw [decide_eq_true_eq] at hq
    refine ⟨hq.2, fun hdont => ?_⟩
    have hjn : j < s.length := List.mem_range.mp hj.1
    exact hq.1 ((tfMark_char s).2.2 j hjn hdont)
  rw [taskFilter_eq_markFilter (taskFilter s),
    tfMark_noop (taskFilter s) (fun x hx => (hmem x hx).2)]
  apply List.filter_eq_self.mpr
  intro a ha
  rw [decide_eq_true_eq]
  exact (hmem a ha).1

/-- C9: taskFilter unconditionally removes every element equal to 0, the value
reused internally as the deletion mark: a code equal to 0 never survives, and
on a sequence containing no DONT sentinel at all taskFilter acts exactly as
the removal of the 0-valued elements by the compaction pass. -/
theorem c9_zero_always_removed (s : List ℚ) :
    (0 : ℚ) ∉ taskFilter s
    ∧ (spec_cmd_dont_CONST ∉ s →
        taskFilter s = s.filter (fun x => decide (x ≠ 0))) := by
  constructor
  · intro h0
    rw [taskFilter_eq_markFilter] at h0
    have hm := List.mem_filter.mp h0
    have := hm.2
    rw [decide_eq_true_eq] at this
    exact this rfl
  · intro hnd
    rw [taskFilter_eq_markFilter, tfMark_noop s (fun x hx he => hnd (he ▸ hx))]
    simp only [MARK_TERMINATION_FLOAT32]

theorem c9_zero_always_removed_witness :
    (0 : ℚ) ∉ taskFilter [0, 7] ∧ taskFilter [0, 7] = [7] := by
  obtain ⟨h1, h2⟩ := c9_zero_always_removed [0, 7]
  refine ⟨h1, ?_⟩
  rw [h2 (by decide)]
  decide

theorem c5_condition_evaluator_witness :
    condLoop [[("wifi").data]] (("on").data)
      [[[("0").data, ("data").data], [("7").data]],
        [[("0").data, ("wifi").data], [("3234").data]],
        [[("9").data]]] = some 3234 := by
  have h := (c5_condition_evaluator [[("wifi").data]] (("on").data)
      [[[("0").data, ("data").data], [("7").data]],
        [[("0").data, ("wifi").data], [("3234").data]],
        [[("9").data]]]).2
    [[[("0").data, ("data").data], [("7").data]]]
    [[("0").data, ("wifi").data], [("3234").data]]
    [[[("9").data]]]
    rfl (by decide) (by decide)
  rw [h]
  decide
